import Mathlib

/-!
Shallow embedding of `src/ppo.py` (PPO agent for Lunar Lander).

Numeric arrays are modelled as `List ℚ` (exact rational arithmetic in place
of floats); boolean done flags as `List Bool`.  The actor's real-analytic
sampling path (tanh squashing, Normal log-density) is modelled over `ℝ`.
Opaque neural-network parameters are a type parameter `P`, and the minibatch
gradient update is an abstract function on `P`.
-/

namespace PPO

/-! ### Statistics over rational arrays (ppo.py lines 182-183) -/

/-- Arithmetic mean of a list, `x.mean()`. Empty list gives `0` (0/0 = 0 in ℚ). -/
def mean (l : List ℚ) : ℚ := l.sum / l.length

/-- Population variance, the square of `x.std(unbiased=False)`. -/
def popVar (l : List ℚ) : ℚ := (l.map (fun a => (a - mean l) ^ 2)).sum / l.length

/-- The constant `1e-8` added to the std in the denominator (line 183). -/
def eps8 : ℚ := 1 / 100000000

/-- Advantage normalization, line 183:
`advantage = (advantage - advantage.mean()) / (advantage.std(unbiased=False) + 1e-8)`.
The population standard deviation is passed as the parameter `s`
(the intended value is the nonnegative square root of `popVar l`,
supplied via a hypothesis `0 ≤ s ∧ s ^ 2 = popVar l` in the theorems,
since square roots leave ℚ). -/
def normalizeAdvantage (l : List ℚ) (s : ℚ) : List ℚ :=
  l.map (fun a => (a - mean l) / (s + eps8))

/-! ### GAE advantage computation (ppo.py lines 175-180) -/

/-- The TD residual `delta` of line 179:
`reward_arr[t] + gamma * vals_arr[t+1] * (1 - int(dones_arr[t])) - vals_arr[t]`.
Out-of-range reads default to `0` / `false`; the loop index range keeps all
reads in range. -/
def gaeDelta (γ : ℚ) (reward vals : List ℚ) (done : List Bool) (t : ℕ) : ℚ :=
  reward.getD t 0 + γ * vals.getD (t + 1) 0 * (1 - if done.getD t false then 1 else 0)
    - vals.getD t 0

/-- Value of the advantage array at index `t` after the backward loop of
lines 176-180.  The loop runs `t = n-2, …, 0` with accumulator
`last_adv = delta + gamma * gae_lambda * last_adv`, starting from `0`;
indices `t ≥ n-1` are never written and keep the `np.zeros` pre-fill. -/
def gaeFrom (γ lam : ℚ) (reward vals : List ℚ) (done : List Bool) (t : ℕ) : ℚ :=
  if _h : t + 1 < reward.length then
    gaeDelta γ reward vals done t + γ * lam * gaeFrom γ lam reward vals done (t + 1)
  else 0
termination_by reward.length - t
decreasing_by omega

/-- The full advantage array produced by lines 175-180 (one entry per reward). -/
def gaeAdvantage (γ lam : ℚ) (reward vals : List ℚ) (done : List Bool) : List ℚ :=
  (List.range reward.length).map (gaeFrom γ lam reward vals done)

/-- Closed-form discounted sum of TD residuals:
`Σ_{j=0}^{n-2-t} (γ·λ)^j · δ_{t+j}`. -/
def tdSum (γ lam : ℚ) (reward vals : List ℚ) (done : List Bool) (t : ℕ) : ℚ :=
  ((List.range (reward.length - 1 - t)).map
    (fun j => (γ * lam) ^ j * gaeDelta γ reward vals done (t + j))).sum

lemma gaeFrom_eq_zero (γ lam : ℚ) (reward vals : List ℚ) (done : List Bool) (t : ℕ)
    (ht : ¬ t + 1 < reward.length) : gaeFrom γ lam reward vals done t = 0 := by
  rw [gaeFrom]
  simp [ht]

lemma gaeFrom_eq_step (γ lam : ℚ) (reward vals : List ℚ) (done : List Bool) (t : ℕ)
    (ht : t + 1 < reward.length) :
    gaeFrom γ lam reward vals done t =
      gaeDelta γ reward vals done t + γ * lam * gaeFrom γ lam reward vals done (t + 1) := by
  rw [gaeFrom]
  simp [ht]

lemma gaeFrom_eq_tdSum (γ lam : ℚ) (reward vals : List ℚ) (done : List Bool) :
    ∀ k t, reward.length - 1 - t = k →
      gaeFrom γ lam reward vals done t = tdSum γ lam reward vals done t := by
  intro k
  induction k with
  | zero =>
    intro t ht
    rw [gaeFrom_eq_zero γ lam reward vals done t (by omega), tdSum, ht]
    simp
  | succ k ih =>
    intro t ht
    have h1 : t + 1 < reward.length := by omega
    rw [gaeFrom_eq_step γ lam reward vals done t h1, ih (t + 1) (by omega),
      tdSum, tdSum, ht]
    have h2 : reward.length - 1 - (t + 1) = k := by omega
    rw [h2]
    have expand : (List.range (k + 1)).map
        (fun j => (γ * lam) ^ j * gaeDelta γ reward vals done (t + j)) =
        ((γ * lam) ^ 0 * gaeDelta γ reward vals done (t + 0)) ::
          (List.range k).map
            (fun j => γ * lam * ((γ * lam) ^ j * gaeDelta γ reward vals done (t + 1 + j))) := by
      rw [List.range_succ_eq_map, List.map_cons, List.map_map]
      congr 1
      refine List.map_congr_left ?_
      intro j _
      have hj : t + Nat.succ j = t + 1 + j := by omega
      simp only [Function.comp, hj, Nat.succ_eq_add_one]
      ring
    rw [expand, List.sum_cons, List.sum_map_mul_left]
    simp

lemma gaeAdvantage_getD (γ lam : ℚ) (reward vals : List ℚ) (done : List Bool) (t : ℕ)
    (ht : t < reward.length) :
    (gaeAdvantage γ lam reward vals done).getD t 0 = gaeFrom γ lam reward vals done t := by
  rw [gaeAdvantage, List.getD_eq_getElem?_getD, List.getElem?_map, List.getElem?_range ht]
  rfl

/-- **C2** (ppo.py lines 175-181).  For an aligned buffer of length `n ≥ 1`,
the backward GAE loop leaves `advantage[n-1]` at its `np.zeros` pre-fill value
`0`, satisfies the recursion
`advantage[t] = delta_t + γ·λ·advantage[t+1]` with
`delta_t = reward[t] + γ·value[t+1]·(1 - done[t]) - value[t]` for every
`t < n-1`, and hence `advantage[t]` equals the closed-form discounted sum of
TD residuals `Σ_j (γλ)^j δ_{t+j}`. -/
theorem gae_advantage_spec (γ lam : ℚ) (reward vals : List ℚ) (done : List Bool)
    (n : ℕ) (hn : n = reward.length) (hv : vals.length = n) (hd : done.length = n)
    (h1 : 1 ≤ n) :
    (gaeAdvantage γ lam reward vals done).getD (n - 1) 0 = 0 ∧
    (∀ t, t < n - 1 →
      (gaeAdvantage γ lam reward vals done).getD t 0 =
        gaeDelta γ reward vals done t +
          γ * lam * (gaeAdvantage γ lam reward vals done).getD (t + 1) 0) ∧
    (∀ t, t < n - 1 →
      (gaeAdvantage γ lam reward vals done).getD t 0 = tdSum γ lam reward vals done t) := by
  subst hn
  refine ⟨?_, ?_, ?_⟩
  · rw [gaeAdvantage_getD γ lam reward vals done _ (by omega)]
    exact gaeFrom_eq_zero γ lam reward vals done _ (by omega)
  · intro t ht
    rw [gaeAdvantage_getD γ lam reward vals done t (by omega),
      gaeAdvantage_getD γ lam reward vals done (t + 1) (by omega)]
    exact gaeFrom_eq_step γ lam reward vals done t (by omega)
  · intro t ht
    rw [gaeAdvantage_getD γ lam reward vals done t (by omega)]
    exact gaeFrom_eq_tdSum γ lam reward vals done (reward.length - 1 - t) t rfl

/-- Witness for C2 at the spec's §8 scenario: n=4, γ=0.99, λ=0.95,
rewards=[1,1,1,1], values=[0,0,0,0], dones=[0,0,0,1]. -/
theorem gae_advantage_spec_witness :
    (gaeAdvantage (99/100) (19/20) [1, 1, 1, 1] [0, 0, 0, 0]
        [false, false, false, true]).getD 3 0 = 0 ∧
    (gaeAdvantage (99/100) (19/20) [1, 1, 1, 1] [0, 0, 0, 0]
        [false, false, false, true]).getD 0 0 =
      tdSum (99/100) (19/20) [1, 1, 1, 1] [0, 0, 0, 0] [false, false, false, true] 0 :=
  ⟨(gae_advantage_spec (99/100) (19/20) [1, 1, 1, 1] [0, 0, 0, 0]
      [false, false, false, true] 4 rfl rfl rfl (by norm_num)).1,
   (gae_advantage_spec (99/100) (19/20) [1, 1, 1, 1] [0, 0, 0, 0]
      [false, false, false, true] 4 rfl rfl rfl (by norm_num)).2.2 0 (by norm_num)⟩

/-! ### Minibatch generation (ppo.py lines 24-29) -/

/-- `len(np.arange(0, n, b))`, i.e. `⌈n/b⌉` for `b ≥ 1`. -/
def ceilDiv (n b : ℕ) : ℕ := (n + b - 1) / b

/-- The index-batch part of `PPOMemory.generate_batches` (lines 24-29):
given the shuffled index list `l` (`indices` after `np.random.shuffle`,
a permutation of `[0, n)`) and the batch size `b`, returns
`[indices[i:i+b] for i in np.arange(0, n, b)]`. -/
def generate_batches (l : List ℕ) (b : ℕ) : List (List ℕ) :=
  (List.range (ceilDiv l.length b)).map (fun j => (l.drop (j * b)).take b)

lemma ceilDiv_zero_left (b : ℕ) (hb : 1 ≤ b) : ceilDiv 0 b = 0 := by
  rw [ceilDiv]
  exact Nat.div_eq_of_lt (by omega)

lemma ceilDiv_succ (n b : ℕ) (hb : 1 ≤ b) (hn : 1 ≤ n) :
    ceilDiv n b = (n - 1) / b + 1 := by
  rw [ceilDiv, show n + b - 1 = (n - 1) + b by omega, Nat.add_div_right _ (by omega)]

lemma ceilDiv_drop (n b : ℕ) (hb : 1 ≤ b) (hn : 1 ≤ n) :
    ceilDiv (n - b) b = (n - 1) / b := by
  rcases le_or_lt n b with h | h
  · rw [show n - b = 0 by omega, ceilDiv_zero_left b hb,
      Nat.div_eq_of_lt (by omega)]
  · rw [ceilDiv_succ (n - b) b hb (by omega),
      show n - 1 = (n - b - 1) + b by omega, Nat.add_div_right _ (by omega)]

lemma generate_batches_cons (b : ℕ) (hb : 1 ≤ b) (l : List ℕ) (hl : l ≠ []) :
    generate_batches l b = l.take b :: generate_batches (l.drop b) b := by
  have hn : 1 ≤ l.length := List.length_pos.mpr hl
  rw [generate_batches, generate_batches, List.length_drop,
    ceilDiv_succ l.length b hb hn, ceilDiv_drop l.length b hb hn,
    List.range_succ_eq_map, List.map_cons, List.map_map]
  congr 1
  · simp
  · refine List.map_congr_left ?_
    intro j _
    simp only [Function.comp, Nat.succ_eq_add_one, List.drop_drop]
    rw [show b + j * b = (j + 1) * b by ring]

lemma generate_batches_flatten (b : ℕ) (hb : 1 ≤ b) (l : List ℕ) :
    (generate_batches l b).flatten = l := by
  by_cases hl : l = []
  · subst hl
    rw [generate_batches]
    simp [ceilDiv_zero_left b hb]
  · rw [generate_batches_cons b hb l hl, List.flatten_cons,
      generate_batches_flatten b hb (l.drop b)]
    exact List.take_append_drop b l
termination_by l.length
decreasing_by
  simp only [List.length_drop]
  have := List.length_pos.mpr hl
  omega

lemma generate_batches_getD (l : List ℕ) (b j : ℕ) (hj : j < ceilDiv l.length b) :
    (generate_batches l b).getD j [] = (l.drop (j * b)).take b := by
  rw [generate_batches, List.getD_eq_getElem?_getD, List.getElem?_map,
    List.getElem?_range hj]
  rfl

lemma countP_sum_zero (L : List ℕ) (h : L.sum = 0) :
    L.countP (fun x => x != 0) = 0 := by
  induction L with
  | nil => rfl
  | cons a L ih =>
    rw [List.sum_cons] at h
    rw [List.countP_cons, ih (by omega), show a = 0 by omega]
    rfl

lemma countP_sum_one (L : List ℕ) (h : L.sum = 1) :
    L.countP (fun x => x != 0) = 1 := by
  induction L with
  | nil => simp at h
  | cons a L ih =>
    rw [List.sum_cons] at h
    by_cases ha : a = 0
    · subst ha
      rw [List.countP_cons, ih (by omega)]
      rfl
    · rw [List.countP_cons, countP_sum_zero L (by omega),
        if_pos (by simpa using ha)]

/-- **C3** (ppo.py lines 24-29).  For a shuffled index list `l`
(any permutation of `[0, n)`), `n ≥ 1` and `b ≥ 1`, `generate_batches`
returns exactly `⌈n/b⌉` batches; their concatenation is a permutation of
`[0, n)`; every batch has size at most `b`; every batch except possibly the
last has size exactly `b`; the batches are pairwise disjoint; and every
index `i < n` lies in exactly one batch. -/
theorem generate_batches_spec (l : List ℕ) (n b : ℕ) (hb : 1 ≤ b) (hn : 1 ≤ n)
    (hperm : l.Perm (List.range n)) :
    (generate_batches l b).length = (n + b - 1) / b ∧
    (generate_batches l b).flatten.Perm (List.range n) ∧
    (∀ s ∈ generate_batches l b, s.length ≤ b) ∧
    (∀ j, j + 1 < (generate_batches l b).length →
      ((generate_batches l b).getD j []).length = b) ∧
    (generate_batches l b).Pairwise List.Disjoint ∧
    (∀ i, i < n → (generate_batches l b).countP (fun s => decide (i ∈ s)) = 1) := by
  have hlen : l.length = n := by rw [hperm.length_eq, List.length_range]
  have hnd : l.Nodup := hperm.symm.nodup (List.nodup_range n)
  have hfl : (generate_batches l b).flatten = l := generate_batches_flatten b hb l
  refine ⟨?_, ?_, ?_, ?_, ?_, ?_⟩
  · rw [generate_batches, List.length_map, List.length_range, hlen, ceilDiv]
  · rw [hfl]; exact hperm
  · intro s hs
    rw [generate_batches, List.mem_map] at hs
    obtain ⟨j, -, rfl⟩ := hs
    rw [List.length_take]
    exact min_le_left _ _
  · intro j hj
    rw [generate_batches, List.length_map, List.length_range] at hj
    have hck : ceilDiv l.length b = (l.length - 1) / b + 1 :=
      ceilDiv_succ l.length b hb (by omega)
    have hjb : (j + 1) * b ≤ l.length - 1 := by
      have h1 : j + 1 ≤ (l.length - 1) / b := by omega
      calc (j + 1) * b ≤ ((l.length - 1) / b) * b := Nat.mul_le_mul_right b h1
        _ ≤ l.length - 1 := Nat.div_mul_le_self _ _
    rw [generate_batches_getD l b j (by omega), List.length_take, List.length_drop]
    have : (j + 1) * b = j * b + b := by ring
    omega
  · have : (generate_batches l b).flatten.Nodup := by rw [hfl]; exact hnd
    exact (List.nodup_flatten.mp this).2
  · intro i hi
    have hmem : i ∈ l := hperm.mem_iff.mpr (List.mem_range.mpr hi)
    have hcount : List.count i (generate_batches l b).flatten = 1 := by
      rw [hfl]
      exact List.count_eq_one_of_mem hnd hmem
    rw [List.count_flatten] at hcount
    have hstep : (generate_batches l b).countP (fun s => decide (i ∈ s)) =
        ((generate_batches l b).map (List.count i)).countP (fun c => c != 0) := by
      rw [List.countP_map]
      refine List.countP_congr ?_
      intro s _
      simp [Function.comp, List.count_pos_iff.symm, Nat.pos_iff_ne_zero]
    rw [hstep]
    exact countP_sum_one _ hcount

/-- Witness for C3: the shuffled permutation `[2, 0, 1]` of `[0, 3)` with
batch size 2 gives `⌈3/2⌉ = 2` batches whose concatenation is a permutation
of `[0, 3)`. -/
theorem generate_batches_spec_witness :
    (generate_batches [2, 0, 1] 2).length = 2 ∧
    (generate_batches [2, 0, 1] 2).flatten.Perm (List.range 3) := by
  have h := generate_batches_spec [2, 0, 1] 3 2 (by norm_num) (by norm_num) (by decide)
  exact ⟨h.1, h.2.1⟩

/-! ### Advantage normalization (ppo.py line 183) -/

lemma sum_map_sub_div (l : List ℚ) (c d : ℚ) :
    (l.map (fun a => (a - c) / d)).sum = (l.sum - l.length * c) / d := by
  induction l with
  | nil => simp
  | cons a l ih =>
    rw [List.map_cons, List.sum_cons, ih, List.sum_cons, List.length_cons,
      div_add_div_same]
    congr 1
    push_cast
    ring

lemma sum_map_sq_div (l : List ℚ) (c d : ℚ) :
    (l.map (fun a => ((a - c) / d) ^ 2)).sum =
      (l.map (fun a => (a - c) ^ 2)).sum / d ^ 2 := by
  induction l with
  | nil => simp
  | cons a l ih =>
    rw [List.map_cons, List.sum_cons, ih, List.map_cons, List.sum_cons, div_pow,
      div_add_div_same]

lemma mean_normalizeAdvantage (l : List ℚ) (s : ℚ) (hl : l ≠ []) :
    mean (normalizeAdvantage l s) = 0 := by
  have hn : (l.length : ℚ) ≠ 0 := by
    have := List.length_pos.mpr hl
    positivity
  have h0 : l.sum - (l.length : ℚ) * mean l = 0 := by
    rw [mean]
    field_simp
  rw [mean, normalizeAdvantage, List.length_map, sum_map_sub_div, h0, zero_div,
    zero_div]

lemma popVar_normalizeAdvantage (l : List ℚ) (s : ℚ) (hl : l ≠ []) :
    popVar (normalizeAdvantage l s) = popVar l / (s + eps8) ^ 2 := by
  rw [popVar, mean_normalizeAdvantage l s hl, normalizeAdvantage, List.length_map,
    List.map_map]
  have hc : ((fun x : ℚ => (x - 0) ^ 2) ∘ fun a => (a - mean l) / (s + eps8)) =
      fun a => ((a - mean l) / (s + eps8)) ^ 2 := by
    funext a
    simp
  rw [hc, sum_map_sq_div, popVar, div_div, div_div, mul_comm]

/-- **C4 amended** (ppo.py line 183).  With `s` the population standard
deviation of the raw advantage array (`0 ≤ s`, `s ^ 2 = popVar l`), the
normalized array `(a - mean) / (s + 1e-8)` always has mean exactly `0`, and
its population variance is exactly `(s / (s + 1e-8)) ^ 2`; the normalized
population std `s / (s + 1e-8)` is within `1e-6` of `1` whenever
`s ≥ 1/100` — but not for every non-zero variance (see the
counterexample). -/
theorem advantage_normalization_spec (l : List ℚ) (s : ℚ) (hl : l ≠ [])
    (hs0 : 0 ≤ s) (hs : s ^ 2 = popVar l) :
    mean (normalizeAdvantage l s) = 0 ∧
    popVar (normalizeAdvantage l s) = (s / (s + eps8)) ^ 2 ∧
    (1 / 100 ≤ s → |s / (s + eps8) - 1| ≤ 1 / 1000000) := by
  refine ⟨mean_normalizeAdvantage l s hl, ?_, ?_⟩
  · rw [popVar_normalizeAdvantage l s hl, ← hs, div_pow]
  · intro h100
    have hd : 0 < s + eps8 := by
      rw [eps8]
      linarith
    have h1 : s / (s + eps8) - 1 = -(eps8 / (s + eps8)) := by
      field_simp
    have he : (0 : ℚ) < eps8 := by
      rw [eps8]
      norm_num
    rw [h1, abs_neg, abs_of_nonneg (le_of_lt (div_pos he hd)), div_le_iff₀ hd,
      eps8]
    linarith

/-- Witness for C4 (amended): raw advantages `[0, 2]` have mean `1` and
population std `1`. -/
theorem advantage_normalization_spec_witness :
    mean (normalizeAdvantage [0, 2] 1) = 0 ∧
    popVar (normalizeAdvantage [0, 2] 1) = ((1 : ℚ) / (1 + eps8)) ^ 2 ∧
    |(1 : ℚ) / (1 + eps8) - 1| ≤ 1 / 1000000 := by
  have h := advantage_normalization_spec [0, 2] 1 (by simp) (by norm_num)
    (by norm_num [popVar, mean])
  exact ⟨h.1, h.2.1, h.2.2 (by norm_num)⟩

/-- Counterexample to **C4** as stated: the raw advantage array
`[0, 2e-8]` has non-zero variance (population std `1e-8`), yet the
normalized array is `[-1/2, 1/2]` with population variance `1/4`, so its
population std is `1/2`, which is not within `1e-6` of `1`. -/
theorem advantage_normalization_counterexample :
    (0 : ℚ) ≤ 1 / 100000000 ∧
    ((1 : ℚ) / 100000000) ^ 2 = popVar [0, 2 / 100000000] ∧
    popVar [(0 : ℚ), 2 / 100000000] ≠ 0 ∧
    popVar (normalizeAdvantage [0, 2 / 100000000] (1 / 100000000)) = 1 / 4 ∧
    (∀ s : ℚ, 0 ≤ s →
      s ^ 2 = popVar (normalizeAdvantage [0, 2 / 100000000] (1 / 100000000)) →
      ¬ |s - 1| ≤ 1 / 1000000) := by
  have hv : popVar (normalizeAdvantage [0, 2 / 100000000] (1 / 100000000)) =
      1 / 4 := by
    norm_num [popVar, mean, normalizeAdvantage, eps8]
  refine ⟨by norm_num, by norm_num [popVar, mean], by norm_num [popVar, mean],
    hv, ?_⟩
  intro s hs0 hs
  rw [hv] at hs
  have hfac : (s - 1 / 2) * (s + 1 / 2) = 0 := by
    have : (s - 1 / 2) * (s + 1 / 2) = s ^ 2 - 1 / 4 := by ring
    rw [this, hs]
    norm_num
  have hs12 : s = 1 / 2 := by
    rcases mul_eq_zero.mp hfac with h | h
    · linarith
    · linarith
  subst hs12
  rw [abs_of_nonpos (by norm_num)]
  norm_num

/-! ### Rollout buffer and agent state (ppo.py lines 14-55, 128-163, 172-219) -/

/-- `PPOMemory` (lines 14-22): six per-transition lists plus the batch size.
States and actions are vectors (`List ℚ`); log-probs, values and rewards are
scalars; dones are booleans.  Field order follows lines 16-22. -/
structure PPOMemoryState where
  states : List (List ℚ)
  probs : List ℚ
  vals : List ℚ
  actions : List (List ℚ)
  rewards : List ℚ
  dones : List Bool
  batch_size : ℕ

/-- `store_memory` (lines 41-47): appends one transition to all six lists. -/
def store_memory (m : PPOMemoryState) (state action : List ℚ)
    (probs vals reward : ℚ) (dones : Bool) : PPOMemoryState :=
  { m with
    states := m.states ++ [state]
    actions := m.actions ++ [action]
    probs := m.probs ++ [probs]
    vals := m.vals ++ [vals]
    rewards := m.rewards ++ [reward]
    dones := m.dones ++ [dones] }

/-- `clear_memory` (lines 49-55): resets all six lists to empty. -/
def clear_memory (m : PPOMemoryState) : PPOMemoryState :=
  { m with states := [], probs := [], vals := [], actions := [], rewards := [],
           dones := [] }

/-- Buffer invariant: all six per-field sequences have equal length. -/
def EqLen (m : PPOMemoryState) : Prop :=
  m.actions.length = m.states.length ∧ m.probs.length = m.states.length ∧
  m.vals.length = m.states.length ∧ m.rewards.length = m.states.length ∧
  m.dones.length = m.states.length

/-- Agent state (lines 128-144): the running reward statistics, the opaque
actor/critic parameters (a type parameter `P`), and the rollout buffer. -/
structure AgentState (P : Type) where
  running_mean : ℚ
  running_var : ℚ
  params : P
  memory : PPOMemoryState

/-- The running-statistics update performed by `normalize_reward`
(lines 159-160): `running_mean := 0.99·running_mean + 0.01·r`, then
`running_var := 0.99·running_var + 0.01·(r - running_mean_new)²`.
The normalized value the method returns (line 161) involves a square root and
is consumed by no caller in the repository; only this state update is
retained. -/
def normalize_reward_update {P : Type} (a : AgentState P) (r : ℚ) :
    AgentState P :=
  let newMean := 99 / 100 * a.running_mean + 1 / 100 * r
  { a with
    running_mean := newMean
    running_var := 99 / 100 * a.running_var + 1 / 100 * (r - newMean) ^ 2 }

/-- One epoch of the `learn` body (lines 174-217): recompute the raw GAE
advantage array from the buffer and apply the minibatch parameter update
`upd` — an abstract stand-in for lines 182-217 (advantage normalization,
batch shuffling, losses, backprop, the optimizer steps), which read only the
advantage array, the buffer contents and the current parameters.  The epoch
body never writes the buffer. -/
def epochStep {P : Type} (γ lam : ℚ) (upd : List ℚ → PPOMemoryState → P → P)
    (s : PPOMemoryState × P) : PPOMemoryState × P :=
  (s.1, upd (gaeAdvantage γ lam s.1.rewards s.1.vals s.1.dones) s.1 s.2)

/-- The raw advantage array recomputed at the start of epoch `i` of a
`learn()` call that started with buffer `m` and parameters `p`. -/
def advantageAtEpoch {P : Type} (γ lam : ℚ)
    (upd : List ℚ → PPOMemoryState → P → P) (m : PPOMemoryState) (p : P)
    (i : ℕ) : List ℚ :=
  gaeAdvantage γ lam ((epochStep γ lam upd)^[i] (m, p)).1.rewards
    ((epochStep γ lam upd)^[i] (m, p)).1.vals
    ((epochStep γ lam upd)^[i] (m, p)).1.dones

/-- `Agent.learn` (lines 172-219): run `n_epochs` epochs over the static
buffer, then clear the buffer (line 219, outside the epoch loop).  The
running reward statistics are neither read nor written. -/
def learn {P : Type} (γ lam : ℚ) (nEpochs : ℕ)
    (upd : List ℚ → PPOMemoryState → P → P) (a : AgentState P) : AgentState P :=
  { a with
    params := ((epochStep γ lam upd)^[nEpochs] (a.memory, a.params)).2
    memory := clear_memory a.memory }

lemma epochStep_iterate_fst {P : Type} (γ lam : ℚ)
    (upd : List ℚ → PPOMemoryState → P → P) (m : PPOMemoryState) (p : P)
    (i : ℕ) : ((epochStep γ lam upd)^[i] (m, p)).1 = m := by
  induction i with
  | zero => rfl
  | succ i ih =>
    rw [Function.iterate_succ_apply']
    simp only [epochStep]
    exact ih

/-- **C5** (ppo.py lines 41-55, 219).  The equal-length buffer invariant is
preserved by `store_memory`, re-established by `clear_memory`, and every
completed `learn()` call leaves the buffer fully cleared: its memory is
exactly `clear_memory` of the pre-call memory, with all six lists empty. -/
theorem buffer_invariant_spec (m : PPOMemoryState) (st ac : List ℚ)
    (pr vl rw : ℚ) (dn : Bool) {P : Type} (γ lam : ℚ) (nEpochs : ℕ)
    (upd : List ℚ → PPOMemoryState → P → P) (a : AgentState P) :
    (EqLen m → EqLen (store_memory m st ac pr vl rw dn)) ∧
    EqLen (clear_memory m) ∧
    (learn γ lam nEpochs upd a).memory = clear_memory a.memory ∧
    (learn γ lam nEpochs upd a).memory.states = [] ∧
    (learn γ lam nEpochs upd a).memory.probs = [] ∧
    (learn γ lam nEpochs upd a).memory.vals = [] ∧
    (learn γ lam nEpochs upd a).memory.actions = [] ∧
    (learn γ lam nEpochs upd a).memory.rewards = [] ∧
    (learn γ lam nEpochs upd a).memory.dones = [] := by
  refine ⟨?_, ?_, rfl, rfl, rfl, rfl, rfl, rfl, rfl⟩
  · intro h
    obtain ⟨h1, h2, h3, h4, h5⟩ := h
    refine ⟨?_, ?_, ?_, ?_, ?_⟩ <;>
      simp [store_memory, h1, h2, h3, h4, h5]
  · exact ⟨rfl, rfl, rfl, rfl, rfl⟩

/-- Witness for C5 at a concrete buffer, agent and update function. -/
theorem buffer_invariant_spec_witness :
    EqLen (store_memory ⟨[[1]], [0], [0], [[1]], [1], [false], 64⟩
      [2, 3] [0] (1 / 2) 0 1 true) ∧
    (learn (99 / 100) (19 / 20) 10 (fun _ _ p => p)
      (⟨0, 1, (), ⟨[[1]], [0], [0], [[1]], [1], [false], 64⟩⟩ :
        AgentState Unit)).memory.states = [] := by
  have h := buffer_invariant_spec ⟨[[1]], [0], [0], [[1]], [1], [false], 64⟩
    [2, 3] [0] (1 / 2) 0 1 true (99 / 100) (19 / 20) 10 (fun _ _ p => p)
    (⟨0, 1, (), ⟨[[1]], [0], [0], [[1]], [1], [false], 64⟩⟩ : AgentState Unit)
  exact ⟨h.1 ⟨rfl, rfl, rfl, rfl, rfl⟩, h.2.2.2.1⟩

/-- **C6** (ppo.py lines 173-183).  Within one `learn()` call the epoch body
never writes the buffer, so the raw advantage array recomputed at the start
of each epoch is the same for every epoch and equals the array computed from
the buffer contents as they were before any epoch ran. -/
theorem epoch_advantage_invariant {P : Type} (γ lam : ℚ)
    (upd : List ℚ → PPOMemoryState → P → P) (m : PPOMemoryState) (p : P)
    (i j : ℕ) :
    advantageAtEpoch γ lam upd m p i = advantageAtEpoch γ lam upd m p j ∧
    advantageAtEpoch γ lam upd m p i =
      gaeAdvantage γ lam m.rewards m.vals m.dones := by
  have h : ∀ k, advantageAtEpoch γ lam upd m p k =
      gaeAdvantage γ lam m.rewards m.vals m.dones := by
    intro k
    rw [advantageAtEpoch, epochStep_iterate_fst]
  exact ⟨(h i).trans (h j).symm, h i⟩

/-- **C7** (ppo.py lines 157-163, 172-219).  `learn` never consumes the
reward-normalization output or the running statistics: two agents that agree
on buffer and parameters but differ in `running_mean`/`running_var` produce
identical parameter updates and identical final buffers; `learn` leaves the
running statistics untouched; and updating the running statistics via
`normalize_reward` beforehand does not change what `learn` computes. -/
theorem learn_ignores_running_stats {P : Type} (γ lam : ℚ) (nEpochs : ℕ)
    (upd : List ℚ → PPOMemoryState → P → P) (a₁ a₂ : AgentState P)
    (hm : a₁.memory = a₂.memory) (hp : a₁.params = a₂.params) (r : ℚ) :
    (learn γ lam nEpochs upd a₁).params = (learn γ lam nEpochs upd a₂).params ∧
    (learn γ lam nEpochs upd a₁).memory = (learn γ lam nEpochs upd a₂).memory ∧
    (learn γ lam nEpochs upd a₁).running_mean = a₁.running_mean ∧
    (learn γ lam nEpochs upd a₁).running_var = a₁.running_var ∧
    (learn γ lam nEpochs upd (normalize_reward_update a₁ r)).params =
      (learn γ lam nEpochs upd a₁).params := by
  refine ⟨?_, ?_, rfl, rfl, ?_⟩
  · simp [learn, hm, hp]
  · simp [learn, hm]
  · simp [learn, normalize_reward_update]

/-- Witness for C7: two concrete agents differing only in running reward
statistics. -/
theorem learn_ignores_running_stats_witness :
    (learn (99 / 100) (19 / 20) 10 (fun _ _ p => p)
        (⟨0, 1, (), ⟨[[1]], [0], [0], [[1]], [1], [false], 64⟩⟩ :
          AgentState Unit)).params =
      (learn (99 / 100) (19 / 20) 10 (fun _ _ p => p)
        (⟨5, 7, (), ⟨[[1]], [0], [0], [[1]], [1], [false], 64⟩⟩ :
          AgentState Unit)).params :=
  (learn_ignores_running_stats (99 / 100) (19 / 20) 10 (fun _ _ p => p)
    (⟨0, 1, (), ⟨[[1]], [0], [0], [[1]], [1], [false], 64⟩⟩ : AgentState Unit)
    (⟨5, 7, (), ⟨[[1]], [0], [0], [[1]], [1], [false], 64⟩⟩ : AgentState Unit)
    rfl rfl 3).1

/-! ### Action sampling over ℝ (ppo.py lines 83-92) -/

/-- `T.clamp(std, min=1e-6)` (line 85). -/
noncomputable def clampStd (s : ℝ) : ℝ := max s (1 / 1000000)

/-- The bounded action transform of line 89: `2 * T.tanh(raw)`. -/
noncomputable def squash (x : ℝ) : ℝ := 2 * Real.tanh x

/-- The action vector returned by `sample_normal`: line 89 applies `2·tanh`
elementwise to the raw Normal sample, and `choose_action` (lines 165-170)
returns it unchanged. -/
noncomputable def sampleAction (raw : List ℝ) : List ℝ := raw.map squash

/-- Log-density of `Normal(μ, σ)` at `x`
(`torch.distributions.Normal.log_prob`):
`-(x-μ)²/(2σ²) - log(σ·√(2π))`. -/
noncomputable def normalLogPdf (μ σ x : ℝ) : ℝ :=
  -((x - μ) ^ 2 / (2 * σ ^ 2)) - Real.log (σ * Real.sqrt (2 * Real.pi))

/-- The summed log-probability returned by `sample_normal` (line 91):
`dist.log_prob(action).sum(dim=-1)`, where the variable `action` has already
been reassigned to `2 * T.tanh(action)` on line 89 — so the Normal density is
evaluated at the squashed action, not at the raw sample. -/
noncomputable def sampleLogProb (mean std raw : List ℝ) : ℝ :=
  ((mean.zip std).zipWith
    (fun ms x => normalLogPdf ms.1 (clampStd ms.2) (squash x)) raw).sum

lemma tanh_lt_one_aux (x : ℝ) : Real.tanh x < 1 := by
  rw [Real.tanh_eq_sinh_div_cosh, div_lt_one (Real.cosh_pos x)]
  have h := Real.cosh_sub_sinh x
  have h2 := Real.exp_pos (-x)
  linarith

lemma neg_one_lt_tanh_aux (x : ℝ) : -1 < Real.tanh x := by
  rw [Real.tanh_eq_sinh_div_cosh, lt_div_iff₀ (Real.cosh_pos x)]
  have h := Real.cosh_add_sinh x
  have h2 := Real.exp_pos x
  linarith

/-- **C9** (ppo.py lines 83-92, 165-170).  Every component of the action
returned by `sample_normal` — and hence by `choose_action`, which returns it
unchanged — lies in `[-2, 2]`, because each raw Normal sample passes through
`action = 2 * tanh(raw_action)`. -/
theorem action_bounded (raw : List ℝ) (a : ℝ) (ha : a ∈ sampleAction raw) :
    -2 ≤ a ∧ a ≤ 2 := by
  rw [sampleAction, List.mem_map] at ha
  obtain ⟨x, -, rfl⟩ := ha
  have h1 := tanh_lt_one_aux x
  have h2 := neg_one_lt_tanh_aux x
  rw [squash]
  constructor <;> linarith

/-- Witness for C9 at the raw sample vector `[0]`. -/
theorem action_bounded_witness : -2 ≤ squash 0 ∧ squash 0 ≤ 2 :=
  action_bounded [0] (squash 0) (by simp [sampleAction])

/-- **C1 amended** (ppo.py lines 83-92).  `sample_normal` draws a raw Normal
sample, returns the transformed action `2 * tanh(raw)`, and returns
`log_prob` equal to the sum over action dimensions of the Normal log-density
evaluated at the TRANSFORMED action (line 89 reassigns `action` before
`dist.log_prob(action)` runs on line 91), with no tanh Jacobian
correction. -/
theorem sample_normal_logprob (mean std raw : List ℝ) :
    sampleLogProb mean std raw =
      ((mean.zip std).zipWith
        (fun ms a => normalLogPdf ms.1 (clampStd ms.2) a)
        (sampleAction raw)).sum := by
  rw [sampleLogProb, sampleAction, List.zipWith_map_right]

lemma normalLogPdf_std_one_inj (a b : ℝ)
    (h : normalLogPdf 0 1 a = normalLogPdf 0 1 b) : a ^ 2 = b ^ 2 := by
  rw [normalLogPdf, normalLogPdf] at h
  have h2 : a ^ 2 / 2 = b ^ 2 / 2 := by nlinarith [h]
  linarith

/-- Counterexample to **C1** as stated: with `mean = [0]`, `std = [1]` and
raw sample `[2]`, the log-probability the code returns (the Normal
log-density at the transformed action `2·tanh 2`) differs from the Normal
log-density at the pre-transform raw sample `2`, because
`(2·tanh 2)² < 4 = 2²`. -/
theorem sample_normal_logprob_counterexample :
    sampleLogProb [0] [1] [2] ≠ normalLogPdf 0 1 2 := by
  have hcl : clampStd 1 = 1 := by
    rw [clampStd]
    norm_num
  have hexp : sampleLogProb [0] [1] [2] = normalLogPdf 0 1 (squash 2) := by
    simp [sampleLogProb, hcl]
  rw [hexp]
  intro h
  have hs4 : squash 2 ^ 2 = 2 ^ 2 := normalLogPdf_std_one_inj _ _ h
  have h1 := tanh_lt_one_aux 2
  have h2 := neg_one_lt_tanh_aux 2
  rw [squash] at hs4
  nlinarith

/-! ### Critic loss (ppo.py lines 204-206) -/

/-- `returns = advantage[batch] + critic_value.detach()` (line 204).
`detach` affects only gradient flow, never the numeric value. -/
def returnsOf (adv criticValue : List ℚ) : List ℚ :=
  adv.zipWith (· + ·) criticValue

/-- `critic_loss = ((returns - critic_value) ** 2).mean()` (lines 205-206). -/
def criticLoss (adv criticValue : List ℚ) : ℚ :=
  mean ((returnsOf adv criticValue).zipWith (fun r c => (r - c) ^ 2) criticValue)

lemma zip_residual (adv cv : List ℚ) (h : cv.length = adv.length) :
    (adv.zipWith (· + ·) cv).zipWith (fun r c => r - c) cv = adv := by
  induction adv generalizing cv with
  | nil =>
    cases cv with
    | nil => rfl
    | cons c cv => simp at h
  | cons a adv ih =>
    cases cv with
    | nil => simp at h
    | cons c cv =>
      simp only [List.zipWith_cons_cons]
      rw [ih cv (by simpa using h)]
      congr 1
      ring

lemma zip_residual_sq (adv cv : List ℚ) (h : cv.length = adv.length) :
    (adv.zipWith (· + ·) cv).zipWith (fun r c => (r - c) ^ 2) cv =
      adv.map (fun a => a ^ 2) := by
  induction adv generalizing cv with
  | nil =>
    cases cv with
    | nil => rfl
    | cons c cv => simp at h
  | cons a adv ih =>
    cases cv with
    | nil => simp at h
    | cons c cv =>
      simp only [List.zipWith_cons_cons, List.map_cons]
      rw [ih cv (by simpa using h)]
      congr 1
      ring

/-- **C10** (ppo.py lines 204-206).  Because the critic target is
`returns = advantage[batch] + critic_value.detach()`, the residual
`returns - critic_value` is numerically equal to `advantage[batch]`, so the
critic loss value equals the mean of the squared (normalized) advantages of
the batch; `detach` changes gradient flow only, not the value. -/
theorem critic_loss_spec (adv criticValue : List ℚ)
    (hlen : criticValue.length = adv.length) :
    (returnsOf adv criticValue).zipWith (fun r c => r - c) criticValue = adv ∧
    criticLoss adv criticValue = mean (adv.map (fun a => a ^ 2)) := by
  refine ⟨?_, ?_⟩
  · rw [returnsOf]
    exact zip_residual adv criticValue hlen
  · rw [criticLoss, returnsOf, zip_residual_sq adv criticValue hlen]

/-- Witness for C10 at a concrete batch: normalized advantages `[1, -2]`,
critic values `[3, 4]`. -/
theorem critic_loss_spec_witness :
    (returnsOf [1, -2] [3, 4]).zipWith (fun r c => r - c) [3, 4] = [1, -2] ∧
    criticLoss [1, -2] [3, 4] = mean ([(1 : ℚ), -2].map (fun a => a ^ 2)) :=
  critic_loss_spec [1, -2] [3, 4] rfl

end PPO
